import Mathlib

/-!
Verification development for the spectral transform engine of the `sheeter`
repository (`src/main.rs`).

Modelling conventions:
* `f64` sample values and map cells are modelled as real numbers (`ℝ`);
  command-line timing parameters (`f64`) are modelled as rationals (`ℚ`),
  and floating-point rounding of products such as `0.1 * 8000.0` is treated
  as exact (all concrete instances used below round identically in IEEE
  double precision).
* Rust's `x as usize` cast of a nonnegative float truncates toward zero and
  saturates at 0 for negative input; this is `Nat.floor` on `ℚ`.
* Operations that make the Rust program abort (an out-of-range slice index,
  an integer division by zero) are modelled by an `Option` result: `none`
  means the run aborts with a panic.  The Rust function's `Result` error
  channel is never used by the source (it only ever returns `Ok`), so the
  embedding has no error value besides `none`.
* A nonfinite IEEE value (`NaN` or an infinity, which arise in the source
  when a cell is divided by a zero maximum) is modelled by `none` in the
  normalized map, whose cells therefore have type `Option ℝ`.
-/

namespace Sheeter

/-- Rust `as usize` cast of an `f64`: truncation toward zero, saturating at
zero for negative values: `Nat.floor` on the rational model. -/
def toUsize (q : ℚ) : ℕ := ⌊q⌋₊

/-- Fields of `wav::Header` used by `fft_transform`. -/
structure Header where
  channel_count : ℕ
  sampling_rate : ℕ

/-- The timing fields of `ProgramArgs` (all `f64` in the source, `ℚ` here). -/
structure ProgramArgs where
  start_time : ℚ
  time_step : ℚ
  chunk_step : Option ℚ
  duration : Option ℚ

/-- Source `ProgramArgs::get_chunk_step`: the chunk step defaults to the time step. -/
def ProgramArgs.get_chunk_step (a : ProgramArgs) : ℚ :=
  a.chunk_step.getD a.time_step

/-- Source `let last_frame = pcm_samples.len() - 1` (saturating at 0 like `Nat` sub;
the empty-stream case is excluded by `parse_wav`'s assertion). -/
def last_frame (L : ℕ) : ℕ := L - 1

/-- Source `let step_size = (args.time_step * header.sampling_rate as f64) as usize`. -/
def step_size (h : Header) (a : ProgramArgs) : ℕ :=
  toUsize (a.time_step * h.sampling_rate)

/-- Source `let start_chunk = ((args.start_time * rate) as usize).min(last_frame)`. -/
def start_chunk (L : ℕ) (h : Header) (a : ProgramArgs) : ℕ :=
  min (toUsize (a.start_time * h.sampling_rate)) (last_frame L)

/-- Source `let end_chunk = args.duration.map_or_else(|| last_frame, |s| (start_chunk + (s*rate) as usize).min(last_frame))`. -/
def end_chunk (L : ℕ) (h : Header) (a : ProgramArgs) : ℕ :=
  match a.duration with
  | none => last_frame L
  | some seconds =>
      min (start_chunk L h a + toUsize (seconds * h.sampling_rate)) (last_frame L)

/-- Source `let read_chunk_size = (args.get_chunk_step() * rate) as usize`. -/
def read_chunk_size (h : Header) (a : ProgramArgs) : ℕ :=
  toUsize (a.get_chunk_step * h.sampling_rate)

/-- Source `let width = (end_chunk - start_chunk) / step_size + 1`. -/
def map_width (L : ℕ) (h : Header) (a : ProgramArgs) : ℕ :=
  (end_chunk L h a - start_chunk L h a) / step_size h a + 1

/-- Source `let height = read_chunk_size / 2`. -/
def map_height (h : Header) (a : ProgramArgs) : ℕ :=
  read_chunk_size h a / 2

/-- Number of values yielded by Rust's `(s..e).step_by(st)`:
`⌈(e - s) / st⌉` for `st ≥ 1`. -/
def step_range_count (s e st : ℕ) : ℕ := (e - s + st - 1) / st

/-- The list of values yielded by Rust's `(s..e).step_by(st)`. -/
def step_range (s e st : ℕ) : List ℕ :=
  (List.range (step_range_count s e st)).map (fun k => s + k * st)

/-- The window start offsets actually iterated by the `for` loop at line 165:
`(start_chunk..end_chunk).step_by(step_size)`. -/
def window_positions (L : ℕ) (h : Header) (a : ProgramArgs) : List ℕ :=
  step_range (start_chunk L h a) (end_chunk L h a) (step_size h a)

/-- Start index of the per-channel slice (line 168-172):
`channel + chunk_start.saturating_add(read_chunk_size / 2).max(0).min(last_frame)`.
The `saturating_add` and `.max(0)` are no-ops in the `Nat` model (the
saturation bound exceeds `last_frame`, so the following `min` gives the same
value either way). -/
def slice_start (L rc cs c : ℕ) : ℕ := c + min (cs + rc / 2) (last_frame L)

/-- Rust's `Iterator::step_by(st)` on a list: keeps the elements at indices
`0, st, 2·st, …` (the source always calls it with `st = channel_count ≥ 1`). -/
def takeEvery {α : Type} (st : ℕ) : List α → List α
  | [] => []
  | x :: xs => x :: takeEvery st (xs.drop (st - 1))
termination_by l => l.length
decreasing_by
  simp only [List.length_drop, List.length_cons]
  omega

/-- The gathered per-channel samples (lines 168-178): slice from
`slice_start`, step by `channel_count`, take `read_chunk_size`, convert each
to a complex number with zero imaginary part. -/
def gather (pcm : List ℝ) (h : Header) (rc cs c : ℕ) : List ℂ :=
  ((takeEvery h.channel_count
      (pcm.drop (slice_start pcm.length rc cs c))).take rc).map
    Complex.ofReal

/-- The buffer handed to the FFT after
`buffer.resize(read_chunk_size, Complex::from(0_f64))` (line 183): the
gathered samples right-padded with zero complex entries (the gather is
already capped at `rc` values, so `resize` only ever pads). -/
def buffer (pcm : List ℝ) (h : Header) (rc cs c : ℕ) : List ℂ :=
  gather pcm h rc cs c ++
    List.replicate (rc - (gather pcm h rc cs c).length) 0

/-- The forward discrete Fourier transform computed by
`FftPlanner::plan_fft_forward` / `fft.process` (rustfft's unnormalized
forward DFT): `X[k] = ∑ⱼ x[j]·exp(-2πi·j·k/n)`. -/
noncomputable def dft (x : List ℂ) : List ℂ :=
  (List.range x.length).map fun (k : ℕ) =>
    ∑ j ∈ Finset.range x.length,
      x.getD j 0 *
        Complex.exp (-(2 * (Real.pi : ℂ) * Complex.I * (j : ℂ) * (k : ℂ)) /
          (x.length : ℂ))

/-- The per-channel magnitude contributions (lines 188-194):
`buffer.iter().take(height).skip(1).map(|complex| complex.re.abs())`. -/
noncomputable def channel_row (pcm : List ℝ) (h : Header) (rc height cs c : ℕ) :
    List ℝ :=
  (((dft (buffer pcm h rc cs c)).take height).drop 1).map (fun z => |z.re|)

/-- Elementwise accumulation `fft_map[x][y] += magnitude` of one channel's
contributions into a row (line 196); entries of the row beyond the
contribution list are left unchanged.  (In every call the contribution has
`height - 1 < height` entries, so the row-truncating case never occurs.) -/
def addInto {α : Type} [Add α] : List α → List α → List α
  | row, [] => row
  | [], _ :: _ => []
  | r :: rs, m :: ms => (r + m) :: addInto rs ms

/-- One window's accumulated row: the inner channel loop (line 167) folded
over `0..channel_count`, starting from the freshly allocated zero row. -/
noncomputable def window_row (pcm : List ℝ) (h : Header) (a : ProgramArgs)
    (cs : ℕ) : List ℝ :=
  (List.range h.channel_count).foldl
    (fun row c =>
      addInto row (channel_row pcm h (read_chunk_size h a) (map_height h a) cs c))
    (List.replicate (map_height h a) 0)

/-- The accumulated transform map: `vec![vec![0_f64; height]; width]`
(line 160) with row `x` overwritten by window `x`'s accumulation; rows past
the last iterated window keep their zero initialization. -/
noncomputable def fft_map (pcm : List ℝ) (h : Header) (a : ProgramArgs) :
    List (List ℝ) :=
  (window_positions pcm.length h a).map (window_row pcm h a) ++
    List.replicate
      (map_width pcm.length h a - (window_positions pcm.length h a).length)
      (List.replicate (map_height h a) 0)

/-- Whether some window/channel iteration reaches a slice start index past
the end of `pcm_samples` — in Rust, `&pcm_samples[i..]` with `i > len`
aborts the program with an index-out-of-range panic. -/
def slice_aborts (L : ℕ) (h : Header) (a : ProgramArgs) : Bool :=
  (window_positions L h a).any fun cs =>
    (List.range h.channel_count).any fun c =>
      decide (L < slice_start L (read_chunk_size h a) cs c)

/-- Source `fft_transform`.  The Rust function's only constructed result is `Ok`;
`none` models the three ways the run can abort: an empty sample stream
(underflow at `pcm_samples.len() - 1`, excluded upstream by `parse_wav`),
a zero `step_size` (integer division by zero computing `width` at line 154),
and an out-of-range slice start during extraction. -/
noncomputable def fft_transform (pcm : List ℝ) (h : Header) (a : ProgramArgs) :
    Option (List (List ℝ) × ℕ × ℕ) :=
  if pcm.length = 0 then none
  else if step_size h a = 0 then none
  else if slice_aborts pcm.length h a then none
  else some (fft_map pcm h a, map_width pcm.length h a, map_height h a)

/-- One step of the fold `|p, i| i.max(p)`: `f64::max` ignores a `NaN`
operand (`none` here), so the first cell replaces the `NaN` accumulator. -/
def maxStep {α : Type} [LinearOrder α] (p : Option α) (i : α) : Option α :=
  match p with
  | none => some i
  | some v => some (max i v)

/-- Source `fft_map.iter().flatten().fold(f64::NAN, |p, i| i.max(p))`: `f64::max`
ignores a `NaN` operand, so the fold computes the maximum of all cells, and
stays `NaN` (modelled `none`) only when the map has no cells. -/
def signal_max {α : Type} [LinearOrder α] (m : List (List α)) : Option α :=
  m.flatten.foldl maxStep none

/-- One cell of the normalization pass `*val /= signal_max`:  dividing a
finite cell by a zero maximum yields a nonfinite IEEE value (`0/0 = NaN`,
`v/0 = ±∞`), modelled `none`; an empty map has maximum `NaN` (`none`), but
then there is no cell to divide. -/
def normalizeCell {α : Type} [LinearOrderedField α] (d : Option α) (v : α) :
    Option α :=
  match d with
  | none => none
  | some m => if m = 0 then none else some (v / m)

/-- Source `amplify_and_normalize` (lines 64-78): optionally apply the amplifier
elementwise, then divide every cell by the global maximum of the (amplified)
map. -/
def amplify_and_normalize {α : Type} [LinearOrderedField α]
    (optional_amplifier : Option (α → α)) (m : List (List α)) :
    List (List (Option α)) :=
  let amped : List (List α) :=
    match optional_amplifier with
    | none => m
    | some f => m.map (fun row => row.map f)
  amped.map (fun row => row.map (normalizeCell (signal_max amped)))

/-- The transform-plus-normalization pipeline exactly as `main` runs it:
`fft_transform` followed by `amplify_and_normalize(&mut fft_map, None)`. -/
noncomputable def pipeline (pcm : List ℝ) (h : Header) (a : ProgramArgs) :
    Option (List (List (Option ℝ))) :=
  (fft_transform pcm h a).map (fun r => amplify_and_normalize none r.1)

/-- Cell `(x, y)` of the accumulated map (0 outside the allocated grid). -/
def cell (m : List (List ℝ)) (x y : ℕ) : ℝ := (m.getD x []).getD y 0

/-- Cell `(x, y)` of the normalized map (`none` outside the grid). -/
def pcell (m : List (List (Option ℝ))) (x y : ℕ) : Option ℝ :=
  (m.getD x []).getD y none

/-- Modelled from the spec: the gather step as claim C1 words it — for
window offset `p` and channel `c`, samples at absolute indices
`p + c, p + c + channel_count, p + c + 2·channel_count, …` (stride
`channel_count`, starting exactly at the window's start offset `p`), up to
`window_length` values, each converted to a complex number with zero
imaginary part. -/
def spec_gather (pcm : List ℝ) (h : Header) (rc p c : ℕ) : List ℂ :=
  ((takeEvery h.channel_count (pcm.drop (p + c))).take rc).map
    Complex.ofReal

/-! ### Supporting lemmas: stepped iteration -/

theorem takeEvery_getElem? {α : Type} (st : ℕ) (hst : 1 ≤ st) :
    ∀ (j : ℕ) (l : List α), (takeEvery st l)[j]? = l[j * st]? := by
  intro j
  induction j with
  | zero =>
      intro l
      cases l with
      | nil => simp [takeEvery]
      | cons x xs => simp [takeEvery]
  | succ j ih =>
      intro l
      cases l with
      | nil => simp [takeEvery]
      | cons x xs =>
          have hmul : (j + 1) * st = st - 1 + j * st + 1 := by
            have h1 : (j + 1) * st = j * st + st := Nat.succ_mul j st
            rw [h1]
            generalize j * st = A
            omega
          rw [takeEvery, hmul, List.getElem?_cons_succ, List.getElem?_cons_succ,
            ih, List.getElem?_drop]

/-! ### Supporting lemmas: accumulation -/

theorem addInto_length {α : Type} [Add α] :
    ∀ (row m : List α), (addInto row m).length = row.length := by
  intro row
  induction row with
  | nil => intro m; cases m <;> simp [addInto]
  | cons r rs ih =>
      intro m
      cases m with
      | nil => simp [addInto]
      | cons x xs => simp [addInto, ih]

theorem addInto_getD {α : Type} [AddMonoid α] :
    ∀ (row m : List α) (y : ℕ), m.length ≤ row.length →
      (addInto row m).getD y 0 = row.getD y 0 + m.getD y 0 := by
  intro row
  induction row with
  | nil =>
      intro m y hm
      cases m with
      | nil => simp [addInto]
      | cons x xs => simp at hm
  | cons r rs ih =>
      intro m y hm
      cases m with
      | nil => simp [addInto]
      | cons x xs =>
          cases y with
          | zero => simp [addInto]
          | succ y => simpa [addInto] using ih xs y (by simpa using hm)

theorem addInto_zero {α : Type} [AddMonoid α] :
    ∀ (row m : List α), (∀ z ∈ m, z = 0) → addInto row m = row := by
  intro row
  induction row with
  | nil => intro m hm; cases m <;> simp [addInto]
  | cons r rs ih =>
      intro m hm
      cases m with
      | nil => simp [addInto]
      | cons x xs =>
          have hx : x = 0 := hm x (by simp)
          have hxs : ∀ z ∈ xs, z = 0 := fun z hz => hm z (by simp [hz])
          simp [addInto, hx, ih xs hxs]

/-! ### Supporting lemmas: the iterated window offsets -/

theorem lt_step_range_count (s e st k : ℕ) (hst : 1 ≤ st) :
    k < step_range_count s e st ↔ k * st < e - s := by
  unfold step_range_count
  rw [Nat.lt_iff_add_one_le, Nat.le_div_iff_mul_le hst, Nat.add_one_mul]
  generalize k * st = A
  omega

theorem length_step_range (s e st : ℕ) :
    (step_range s e st).length = step_range_count s e st := by
  simp [step_range]

theorem step_range_getElem? (s e st k : ℕ) (h : k < step_range_count s e st) :
    (step_range s e st)[k]? = some (s + k * st) := by
  simp [step_range, List.getElem?_range, h]

theorem mem_step_range (s e st p : ℕ) :
    p ∈ step_range s e st ↔
      ∃ k, k < step_range_count s e st ∧ s + k * st = p := by
  simp [step_range]

theorem step_range_count_le (s e st : ℕ) (hst : 1 ≤ st) :
    step_range_count s e st ≤ (e - s) / st + 1 := by
  unfold step_range_count
  have h1 : e - s + st - 1 ≤ e - s + st := by omega
  calc (e - s + st - 1) / st ≤ (e - s + st) / st := Nat.div_le_div_right h1
    _ = (e - s) / st + 1 := Nat.add_div_right _ hst

/-! ### Supporting lemmas: the extracted channel buffer -/

theorem gather_getElem? (pcm : List ℝ) (h : Header) (rc cs c j : ℕ)
    (hcc : 1 ≤ h.channel_count) :
    (gather pcm h rc cs c)[j]? =
      if j < rc then
        (pcm[slice_start pcm.length rc cs c + j * h.channel_count]?).map
          Complex.ofReal
      else none := by
  unfold gather
  rw [List.getElem?_map, List.getElem?_take]
  by_cases hj : j < rc
  · rw [if_pos hj, if_pos hj, takeEvery_getElem? _ hcc, List.getElem?_drop]
  · rw [if_neg hj, if_neg hj, Option.map_none']

theorem gather_length_le (pcm : List ℝ) (h : Header) (rc cs c : ℕ) :
    (gather pcm h rc cs c).length ≤ rc := by
  unfold gather
  rw [List.length_map, List.length_take]
  exact min_le_left _ _

theorem buffer_length (pcm : List ℝ) (h : Header) (rc cs c : ℕ) :
    (buffer pcm h rc cs c).length = rc := by
  have hle := gather_length_le pcm h rc cs c
  unfold buffer
  rw [List.length_append, List.length_replicate]
  omega

theorem buffer_getElem? (pcm : List ℝ) (h : Header) (rc cs c j : ℕ)
    (hcc : 1 ≤ h.channel_count) (hj : j < rc) :
    (buffer pcm h rc cs c)[j]? =
      some
        (if slice_start pcm.length rc cs c + j * h.channel_count < pcm.length
          then Complex.ofReal
            (pcm.getD (slice_start pcm.length rc cs c + j * h.channel_count) 0)
          else 0) := by
  have hg := gather_getElem? pcm h rc cs c j hcc
  rw [if_pos hj] at hg
  unfold buffer
  rw [List.getElem?_append]
  by_cases hin : slice_start pcm.length rc cs c + j * h.channel_count < pcm.length
  · have hsome : pcm[slice_start pcm.length rc cs c + j * h.channel_count]? =
        some pcm[slice_start pcm.length rc cs c + j * h.channel_count] :=
      List.getElem?_eq_getElem hin
    rw [hsome, Option.map_some'] at hg
    have hlt : j < (gather pcm h rc cs c).length := by
      rcases List.getElem?_eq_some.mp hg with ⟨hn, _⟩
      exact hn
    rw [if_pos hlt, hg, if_pos hin]
    congr 2
    rw [List.getD_eq_getElem?_getD, hsome, Option.getD_some]
  · have hnone : pcm[slice_start pcm.length rc cs c + j * h.channel_count]? = none :=
      List.getElem?_eq_none_iff.mpr (by omega)
    rw [hnone, Option.map_none'] at hg
    have hge : (gather pcm h rc cs c).length ≤ j :=
      List.getElem?_eq_none_iff.mp hg
    have hglen := gather_length_le pcm h rc cs c
    rw [if_neg (by omega), if_neg hin]
    rw [List.getElem?_replicate, if_pos (by omega)]

theorem buffer_getD (pcm : List ℝ) (h : Header) (rc cs c j : ℕ)
    (hcc : 1 ≤ h.channel_count) (hj : j < rc) :
    (buffer pcm h rc cs c).getD j 0 =
      if slice_start pcm.length rc cs c + j * h.channel_count < pcm.length
        then Complex.ofReal
          (pcm.getD (slice_start pcm.length rc cs c + j * h.channel_count) 0)
        else 0 := by
  rw [List.getD_eq_getElem?_getD, buffer_getElem? pcm h rc cs c j hcc hj,
    Option.getD_some]

/-! ### Supporting lemmas: small `getD` facts -/

theorem getD_eq_zero_of_forall {α : Type} [Zero α] (x : List α)
    (hx : ∀ z ∈ x, z = 0) (j : ℕ) : x.getD j 0 = 0 := by
  rw [List.getD_eq_getElem?_getD]
  rcases Nat.lt_or_ge j x.length with hlt | hge
  · rw [List.getElem?_eq_getElem hlt, Option.getD_some]
    exact hx _ (List.getElem_mem hlt)
  · rw [List.getElem?_eq_none_iff.mpr hge, Option.getD_none]

theorem getD_eq_zero_of_le {α : Type} [Zero α] (x : List α) (j : ℕ)
    (h : x.length ≤ j) : x.getD j 0 = 0 := by
  rw [List.getD_eq_getElem?_getD, List.getElem?_eq_none_iff.mpr h,
    Option.getD_none]

/-! ### Supporting lemmas: the discrete Fourier transform -/

theorem dft_length (x : List ℂ) : (dft x).length = x.length := by
  simp [dft]

theorem dft_getElem? (x : List ℂ) (k : ℕ) (hk : k < x.length) :
    (dft x)[k]? =
      some (∑ j ∈ Finset.range x.length,
        x.getD j 0 *
          Complex.exp (-(2 * (Real.pi : ℂ) * Complex.I * (j : ℂ) * (k : ℂ)) /
            (x.length : ℂ))) := by
  simp [dft, List.getElem?_range, hk]

theorem dft_zero (x : List ℂ) (hx : ∀ z ∈ x, z = 0) :
    dft x = List.replicate x.length 0 := by
  unfold dft
  rw [List.eq_replicate_iff]
  refine ⟨by simp, ?_⟩
  intro b hb
  rcases List.mem_map.mp hb with ⟨k, _, rfl⟩
  apply Finset.sum_eq_zero
  intro j _
  rw [getD_eq_zero_of_forall x hx j, zero_mul]

/-! ### Supporting lemmas: channel rows and window rows -/

theorem channel_row_length (pcm : List ℝ) (h : Header) (rc height cs c : ℕ) :
    (channel_row pcm h rc height cs c).length = min height rc - 1 := by
  unfold channel_row
  rw [List.length_map, List.length_drop, List.length_take, dft_length,
    buffer_length]

theorem channel_row_getD (pcm : List ℝ) (h : Header) (rc height cs c y : ℕ)
    (hy : y + 1 < height) (hhr : height ≤ rc) :
    (channel_row pcm h rc height cs c).getD y 0 =
      |((dft (buffer pcm h rc cs c)).getD (y + 1) 0).re| := by
  unfold channel_row
  rw [List.getD_eq_getElem?_getD, List.getElem?_map, List.getElem?_drop,
    List.getElem?_take]
  have h1y : 1 + y < height := by omega
  rw [if_pos h1y]
  have hlen : 1 + y < (dft (buffer pcm h rc cs c)).length := by
    rw [dft_length, buffer_length]
    omega
  rw [List.getElem?_eq_getElem hlen, Option.map_some', Option.getD_some,
    List.getD_eq_getElem?_getD, show y + 1 = 1 + y from by omega,
    List.getElem?_eq_getElem hlen, Option.getD_some]

theorem channel_row_nonneg (pcm : List ℝ) (h : Header) (rc height cs c : ℕ) :
    ∀ v ∈ channel_row pcm h rc height cs c, 0 ≤ v := by
  intro v hv
  rcases List.mem_map.mp hv with ⟨z, _, rfl⟩
  exact abs_nonneg _

theorem foldl_addInto_length (f : ℕ → List ℝ) :
    ∀ (cs : List ℕ) (init : List ℝ),
      (cs.foldl (fun row c => addInto row (f c)) init).length = init.length := by
  intro cs
  induction cs with
  | nil => intro init; rfl
  | cons c cs ih =>
      intro init
      rw [List.foldl_cons, ih, addInto_length]

theorem foldl_addInto_getD (f : ℕ → List ℝ) (y : ℕ) :
    ∀ (cs : List ℕ) (init : List ℝ),
      (∀ c ∈ cs, (f c).length ≤ init.length) →
      (cs.foldl (fun row c => addInto row (f c)) init).getD y 0 =
        init.getD y 0 + (cs.map (fun c => (f c).getD y 0)).sum := by
  intro cs
  induction cs with
  | nil => intro init _; simp
  | cons c cs ih =>
      intro init hlen
      rw [List.foldl_cons,
        ih _ (fun d hd => by
          rw [addInto_length]
          exact hlen d (List.mem_cons_of_mem _ hd)),
        addInto_getD _ _ _ (hlen c (List.mem_cons_self _ _)), List.map_cons,
        List.sum_cons]
      ring

theorem addInto_nonneg {row m : List ℝ} (hr : ∀ v ∈ row, 0 ≤ v)
    (hm : ∀ v ∈ m, 0 ≤ v) : ∀ v ∈ addInto row m, 0 ≤ v := by
  induction row generalizing m with
  | nil =>
      cases m with
      | nil => simp [addInto]
      | cons x xs => simp [addInto]
  | cons r rs ih =>
      cases m with
      | nil => simpa [addInto] using hr
      | cons x xs =>
          intro v hv
          rcases List.mem_cons.mp hv with rfl | hmem
          · exact add_nonneg (hr r (by simp)) (hm x (by simp))
          · exact ih (fun w hw => hr w (by simp [hw]))
              (fun w hw => hm w (by simp [hw])) v hmem

theorem foldl_addInto_nonneg (f : ℕ → List ℝ)
    (hf : ∀ c, ∀ v ∈ f c, 0 ≤ v) :
    ∀ (cs : List ℕ) (init : List ℝ), (∀ v ∈ init, 0 ≤ v) →
      ∀ v ∈ cs.foldl (fun row c => addInto row (f c)) init, 0 ≤ v := by
  intro cs
  induction cs with
  | nil => intro init h; simpa using h
  | cons c cs ih =>
      intro init h
      rw [List.foldl_cons]
      exact ih _ (addInto_nonneg h (hf c))

theorem window_row_length (pcm : List ℝ) (h : Header) (a : ProgramArgs)
    (cs : ℕ) : (window_row pcm h a cs).length = map_height h a := by
  unfold window_row
  rw [foldl_addInto_length, List.length_replicate]

theorem map_height_le_rc (h : Header) (a : ProgramArgs) :
    map_height h a ≤ read_chunk_size h a :=
  Nat.div_le_self _ _

theorem replicate_getD_zero (n y : ℕ) : (List.replicate n (0 : ℝ)).getD y 0 = 0 := by
  rw [List.getD_eq_getElem?_getD, List.getElem?_replicate]
  by_cases hy : y < n
  · rw [if_pos hy, Option.getD_some]
  · rw [if_neg hy, Option.getD_none]

theorem window_row_getD (pcm : List ℝ) (h : Header) (a : ProgramArgs)
    (cs y : ℕ) :
    (window_row pcm h a cs).getD y 0 =
      ((List.range h.channel_count).map
        (fun c =>
          (channel_row pcm h (read_chunk_size h a) (map_height h a) cs c).getD y 0)).sum := by
  unfold window_row
  rw [foldl_addInto_getD, replicate_getD_zero, zero_add]
  intro c _
  rw [List.length_replicate, channel_row_length]
  have := map_height_le_rc h a
  omega

theorem window_row_nonneg (pcm : List ℝ) (h : Header) (a : ProgramArgs)
    (cs : ℕ) : ∀ v ∈ window_row pcm h a cs, 0 ≤ v := by
  unfold window_row
  apply foldl_addInto_nonneg
  · intro c
    exact channel_row_nonneg pcm h _ _ cs c
  · intro v hv
    rw [List.eq_of_mem_replicate hv]

/-! ### Supporting lemmas: the accumulated map -/

theorem positions_length_le (L : ℕ) (h : Header) (a : ProgramArgs)
    (hst : step_size h a ≠ 0) :
    (window_positions L h a).length ≤ map_width L h a := by
  unfold window_positions map_width
  rw [length_step_range]
  exact step_range_count_le _ _ _ (by omega)

theorem fft_map_length (pcm : List ℝ) (h : Header) (a : ProgramArgs)
    (hst : step_size h a ≠ 0) :
    (fft_map pcm h a).length = map_width pcm.length h a := by
  have := positions_length_le pcm.length h a hst
  unfold fft_map
  rw [List.length_append, List.length_map, List.length_replicate]
  omega

theorem fft_map_getD_lt (pcm : List ℝ) (h : Header) (a : ProgramArgs) (x : ℕ)
    (hx : x < (window_positions pcm.length h a).length) :
    (fft_map pcm h a).getD x [] =
      window_row pcm h a ((window_positions pcm.length h a).getD x 0) := by
  unfold fft_map
  rw [List.getD_eq_getElem?_getD, List.getElem?_append,
    if_pos (by rw [List.length_map]; exact hx), List.getElem?_map,
    List.getElem?_eq_getElem hx, Option.map_some', Option.getD_some]
  congr 1
  rw [List.getD_eq_getElem?_getD, List.getElem?_eq_getElem hx, Option.getD_some]

theorem fft_map_getD_pad (pcm : List ℝ) (h : Header) (a : ProgramArgs) (x : ℕ)
    (hx : (window_positions pcm.length h a).length ≤ x)
    (hx2 : x < map_width pcm.length h a) :
    (fft_map pcm h a).getD x [] = List.replicate (map_height h a) 0 := by
  unfold fft_map
  rw [List.getD_eq_getElem?_getD, List.getElem?_append,
    if_neg (by rw [List.length_map]; omega), List.length_map,
    List.getElem?_replicate, if_pos (by omega), Option.getD_some]

theorem fft_map_row_length (pcm : List ℝ) (h : Header) (a : ProgramArgs) :
    ∀ row ∈ fft_map pcm h a, row.length = map_height h a := by
  intro row hrow
  rcases List.mem_append.mp hrow with hl | hr
  · rcases List.mem_map.mp hl with ⟨cs, _, rfl⟩
    exact window_row_length pcm h a cs
  · rw [List.eq_of_mem_replicate hr, List.length_replicate]

theorem fft_map_nonneg (pcm : List ℝ) (h : Header) (a : ProgramArgs) :
    ∀ row ∈ fft_map pcm h a, ∀ v ∈ row, 0 ≤ v := by
  intro row hrow
  rcases List.mem_append.mp hrow with hl | hr
  · rcases List.mem_map.mp hl with ⟨cs, _, rfl⟩
    exact window_row_nonneg pcm h a cs
  · intro v hv
    rw [List.eq_of_mem_replicate hr] at hv
    rw [List.eq_of_mem_replicate hv]

/-! ### Supporting lemmas: the global maximum and normalization -/

theorem foldl_maxStep_some {α : Type} [LinearOrder α] :
    ∀ (l : List α) (v : α), l.foldl maxStep (some v) = some (l.foldl max v) := by
  intro l
  induction l with
  | nil => intro v; rfl
  | cons x xs ih =>
      intro v
      rw [List.foldl_cons, List.foldl_cons,
        show maxStep (some v) x = some (max v x) from by rw [maxStep, max_comm]]
      exact ih (max v x)

theorem foldl_max_le {α : Type} [LinearOrder α] :
    ∀ (l : List α) (v : α),
      v ≤ l.foldl max v ∧ ∀ x ∈ l, x ≤ l.foldl max v := by
  intro l
  induction l with
  | nil => intro v; exact ⟨le_refl v, by simp⟩
  | cons x xs ih =>
      intro v
      rw [List.foldl_cons]
      refine ⟨le_trans (le_max_left v x) (ih (max v x)).1, ?_⟩
      intro y hy
      rcases List.mem_cons.mp hy with rfl | hmem
      · exact le_trans (le_max_right v y) (ih (max v y)).1
      · exact (ih (max v x)).2 y hmem

theorem foldl_max_mem {α : Type} [LinearOrder α] :
    ∀ (l : List α) (v : α), l.foldl max v = v ∨ l.foldl max v ∈ l := by
  intro l
  induction l with
  | nil => intro v; exact Or.inl rfl
  | cons x xs ih =>
      intro v
      rw [List.foldl_cons]
      rcases ih (max v x) with heq | hmem
      · rw [heq]
        rcases max_choice v x with h1 | h1
        · exact Or.inl h1
        · exact Or.inr (by rw [h1]; exact List.mem_cons_self _ _)
      · exact Or.inr (List.mem_cons_of_mem _ hmem)

theorem signal_max_some {α : Type} [LinearOrder α] (m : List (List α)) (v : α)
    (h : signal_max m = some v) :
    v ∈ m.flatten ∧ ∀ x ∈ m.flatten, x ≤ v := by
  unfold signal_max at h
  cases hfl : m.flatten with
  | nil => rw [hfl] at h; simp [List.foldl_nil] at h
  | cons x xs =>
      rw [hfl, List.foldl_cons, show maxStep none x = some x from rfl,
        foldl_maxStep_some] at h
      have hv : v = xs.foldl max x := by
        injection h with h
        exact h.symm
      subst hv
      constructor
      · rcases foldl_max_mem xs x with heq | hmem
        · rw [heq]
          exact List.mem_cons_self _ _
        · exact List.mem_cons_of_mem _ hmem
      · intro y hy
        rcases List.mem_cons.mp hy with rfl | hmem
        · exact (foldl_max_le xs y).1
        · exact (foldl_max_le xs x).2 y hmem

theorem amplify_none {α : Type} [LinearOrderedField α] (m : List (List α)) :
    amplify_and_normalize none m =
      m.map (fun row => row.map (normalizeCell (signal_max m))) := rfl

/-! ### Supporting lemmas: the transform result -/

theorem fft_transform_eq_some (pcm : List ℝ) (h : Header) (a : ProgramArgs)
    (r : List (List ℝ) × ℕ × ℕ) :
    fft_transform pcm h a = some r ↔
      pcm.length ≠ 0 ∧ step_size h a ≠ 0 ∧
        slice_aborts pcm.length h a = false ∧
        r = (fft_map pcm h a, map_width pcm.length h a, map_height h a) := by
  unfold fft_transform
  split_ifs with h1 h2 h3
  · simp [h1]
  · simp [h2]
  · simp [h3]
  · simp [h1, h2, h3, eq_comm]

theorem pipeline_eq_some (pcm : List ℝ) (h : Header) (a : ProgramArgs)
    (M : List (List (Option ℝ))) :
    pipeline pcm h a = some M ↔
      pcm.length ≠ 0 ∧ step_size h a ≠ 0 ∧
        slice_aborts pcm.length h a = false ∧
        M = amplify_and_normalize none (fft_map pcm h a) := by
  unfold pipeline
  rw [Option.map_eq_some']
  constructor
  · rintro ⟨r, hr, rfl⟩
    rcases (fft_transform_eq_some pcm h a r).mp hr with ⟨h1, h2, h3, rfl⟩
    exact ⟨h1, h2, h3, rfl⟩
  · rintro ⟨h1, h2, h3, rfl⟩
    exact ⟨_, (fft_transform_eq_some pcm h a _).mpr ⟨h1, h2, h3, rfl⟩, rfl⟩

theorem end_chunk_le (L : ℕ) (h : Header) (a : ProgramArgs) :
    end_chunk L h a ≤ last_frame L := by
  unfold end_chunk
  cases hd : a.duration with
  | none => exact le_refl _
  | some s => exact min_le_right _ _

/-! ### Claim C2 -/

/-- Claim C2 counterexample: a non-empty 4-sample stream with valid timing
parameters (derived step 1) whose start time lies at the stream's end, so
`start_chunk = end_chunk = 3`.  The loop `(start_chunk..end_chunk)` iterates
zero window positions: the sequence actually iterated over is empty, against
the claim that it is non-empty and contains at least one position in the
boundary case `end_sample == start_sample`. -/
theorem C2_counterexample :
    window_positions 4 ⟨1, 1⟩ ⟨10, 1, none, none⟩ = [] ∧
    start_chunk 4 ⟨1, 1⟩ ⟨10, 1, none, none⟩ =
      end_chunk 4 ⟨1, 1⟩ ⟨10, 1, none, none⟩ ∧
    step_size ⟨1, 1⟩ ⟨10, 1, none, none⟩ = 1 := by
  refine ⟨?_, ?_, ?_⟩
  · norm_num [window_positions, step_range, step_range_count, start_chunk,
      end_chunk, step_size, last_frame, toUsize]
  · norm_num [start_chunk, end_chunk, step_size, last_frame, toUsize]
  · norm_num [step_size, toUsize]

/-- Claim C2, amended: for a positive derived step, the iterated window
positions are strictly increasing and all at most `stream_length - 1`, but
the sequence is non-empty exactly when `start_chunk < end_chunk`; in the
boundary case `end_chunk = start_chunk` zero positions are iterated (only
the allocated width keeps the historical `+ 1`). -/
theorem C2_amended (L : ℕ) (h : Header) (a : ProgramArgs)
    (hst : 1 ≤ step_size h a) :
    List.Pairwise (· < ·) (window_positions L h a) ∧
    (∀ p ∈ window_positions L h a, p ≤ L - 1) ∧
    (window_positions L h a ≠ [] ↔ start_chunk L h a < end_chunk L h a) := by
  refine ⟨?_, ?_, ?_, ?_⟩
  · unfold window_positions step_range
    refine List.Pairwise.map _ ?_ (List.pairwise_lt_range _)
    intro k1 k2 hk
    have hmul : k1 * step_size h a < k2 * step_size h a :=
      mul_lt_mul_of_pos_right hk (by omega)
    omega
  · intro p hp
    unfold window_positions at hp
    rcases (mem_step_range _ _ _ p).mp hp with ⟨k, hk, rfl⟩
    have hlt := (lt_step_range_count _ _ _ k hst).mp hk
    have hle : end_chunk L h a ≤ last_frame L := end_chunk_le L h a
    unfold last_frame at hle
    omega
  · intro hne
    rcases List.exists_mem_of_ne_nil _ hne with ⟨p, hp⟩
    unfold window_positions at hp
    rcases (mem_step_range _ _ _ p).mp hp with ⟨k, hk, _⟩
    have hlt := (lt_step_range_count _ _ _ k hst).mp hk
    omega
  · intro hlt
    have h0 : 0 <
        step_range_count (start_chunk L h a) (end_chunk L h a) (step_size h a) := by
      have hiff :=
        lt_step_range_count (start_chunk L h a) (end_chunk L h a)
          (step_size h a) 0 hst
      rw [Nat.zero_mul] at hiff
      exact hiff.mpr (by omega)
    have hlen : 0 < (window_positions L h a).length := by
      unfold window_positions
      rw [length_step_range]
      exact h0
    exact List.length_pos.mp hlen

/-- Claim C2 witness: the amended statement applied to the spec's edge
scenario (8000 samples at 8000 Hz, 0.1 s step). -/
theorem C2_witness :
    1 ≤ step_size ⟨1, 8000⟩ ⟨0, 1/10, none, none⟩ ∧
    (List.Pairwise (· < ·)
        (window_positions 8000 ⟨1, 8000⟩ ⟨0, 1/10, none, none⟩) ∧
      (∀ p ∈ window_positions 8000 ⟨1, 8000⟩ ⟨0, 1/10, none, none⟩,
        p ≤ 8000 - 1) ∧
      (window_positions 8000 ⟨1, 8000⟩ ⟨0, 1/10, none, none⟩ ≠ [] ↔
        start_chunk 8000 ⟨1, 8000⟩ ⟨0, 1/10, none, none⟩ <
          end_chunk 8000 ⟨1, 8000⟩ ⟨0, 1/10, none, none⟩)) :=
  ⟨by norm_num [step_size, toUsize],
    C2_amended 8000 ⟨1, 8000⟩ ⟨0, 1/10, none, none⟩
      (by norm_num [step_size, toUsize])⟩

/-! ### Claim C8 -/

/-- Claim C8: the map width is `(end_chunk - start_chunk) / step + 1` for
every configuration, and in the spec's edge scenario (sampling rate 8000,
one channel, 8000 samples, 0.1 s window and step, start 0, no duration cap)
the width is 10, ten window positions are iterated, and the position at
index 5 is sample 4000. -/
theorem C8_width :
    (∀ (L : ℕ) (h : Header) (a : ProgramArgs),
      map_width L h a =
        (end_chunk L h a - start_chunk L h a) / step_size h a + 1) ∧
    map_width 8000 ⟨1, 8000⟩ ⟨0, 1/10, none, none⟩ = 10 ∧
    (window_positions 8000 ⟨1, 8000⟩ ⟨0, 1/10, none, none⟩).length = 10 ∧
    (window_positions 8000 ⟨1, 8000⟩ ⟨0, 1/10, none, none⟩).getD 5 0 = 4000 := by
  have hpos : window_positions 8000 ⟨1, 8000⟩ ⟨0, 1/10, none, none⟩ =
      (List.range 10).map (fun k => 0 + k * 800) := by
    norm_num [window_positions, step_range, step_range_count, start_chunk,
      end_chunk, step_size, last_frame, toUsize]
  refine ⟨fun L h a => rfl, ?_, ?_, ?_⟩
  · norm_num [map_width, start_chunk, end_chunk, step_size, last_frame,
      toUsize]
  · rw [hpos]
    simp
  · rw [hpos]
    decide

/-! ### Claim C4 -/

/-- Claim C4 counterexample: a configuration whose derived step is 0
(`time_step = 0.5` s at 1 Hz truncates to 0 samples) makes the run abort
with an integer division by zero while computing `width` (modelled `none`),
instead of failing with an `InvalidParameter` error: the source performs no
parameter validation at all and its `Result` never carries an error. -/
theorem C4_counterexample :
    step_size ⟨1, 1⟩ ⟨0, 1/2, none, none⟩ = 0 ∧
    fft_transform [1, 2, 3, 4] ⟨1, 1⟩ ⟨0, 1/2, none, none⟩ = none := by
  have hst : step_size ⟨1, 1⟩ ⟨0, 1/2, none, none⟩ = 0 := by
    norm_num [step_size, toUsize]
  refine ⟨hst, ?_⟩
  unfold fft_transform
  rw [if_neg (by norm_num), if_pos hst]

/-- Claim C4, amended: the code validates nothing and has no
`InvalidParameter` path — for every non-empty stream, a configuration whose
derived step is 0 aborts (division by zero computing the width, before any
window is processed) rather than returning an error; a derived window
length of 0 with a positive step is not rejected either. -/
theorem C4_amended (pcm : List ℝ) (h : Header) (a : ProgramArgs)
    (hL : pcm.length ≠ 0) (hst : step_size h a = 0) :
    fft_transform pcm h a = none := by
  unfold fft_transform
  rw [if_neg hL, if_pos hst]

/-- Claim C4 witness: the amended statement at a concrete two-sample
stream with `time_step = 1/3` s at 1 Hz. -/
theorem C4_witness :
    ([5, 6] : List ℝ).length ≠ 0 ∧
    step_size ⟨1, 1⟩ ⟨0, 1/3, none, none⟩ = 0 ∧
    fft_transform [5, 6] ⟨1, 1⟩ ⟨0, 1/3, none, none⟩ = none :=
  ⟨by norm_num, by norm_num [step_size, toUsize],
    C4_amended [5, 6] ⟨1, 1⟩ ⟨0, 1/3, none, none⟩ (by norm_num)
      (by norm_num [step_size, toUsize])⟩

/-! ### Claim C1 -/

/-- Claim C1 counterexample: with one channel, 8 samples `0..7`, window
offset `p = 0` and window length 4, the claim's gather (stride 1 starting
exactly at `p`) yields `[0, 1, 2, 3]`, but the code gathers starting at
`min(p + window_length/2, stream_length - 1) = 2`, yielding `[2, 3, 4, 5]`:
the extraction does not start at the window's start offset. -/
theorem C1_counterexample :
    gather [0, 1, 2, 3, 4, 5, 6, 7] ⟨1, 1⟩ 4 0 0 = [2, 3, 4, 5] ∧
    spec_gather [0, 1, 2, 3, 4, 5, 6, 7] ⟨1, 1⟩ 4 0 0 = [0, 1, 2, 3] ∧
    ([2, 3, 4, 5] : List ℂ) ≠ [0, 1, 2, 3] := by
  refine ⟨?_, ?_, ?_⟩
  · norm_num [gather, slice_start, last_frame, takeEvery]
  · norm_num [spec_gather, takeEvery]
  · intro hcon
    have h2 : (2 : ℂ) = 0 := by
      injection hcon
    norm_num at h2

/-- Claim C1, amended: for channel `c` of window offset `p`, entry `j` of
the extracted buffer is the sample at absolute interleaved index
`q + c + j·channel_count` where `q = min(p + window_length/2,
stream_length - 1)` — i.e. the gather strides by `channel_count` and takes
up to `window_length` values converted with zero imaginary part, but starts
half a window past `p` (clamped to the last frame), not at `p`; indices past
the stream end read as the zero padding. -/
theorem C1_amended (pcm : List ℝ) (h : Header) (rc cs c j : ℕ)
    (hcc : 1 ≤ h.channel_count) (hj : j < rc) :
    (buffer pcm h rc cs c).getD j 0 =
      if slice_start pcm.length rc cs c + j * h.channel_count < pcm.length
        then Complex.ofReal
          (pcm.getD (slice_start pcm.length rc cs c + j * h.channel_count) 0)
        else 0 :=
  buffer_getD pcm h rc cs c j hcc hj

/-- Claim C1 witness: the amended characterization at a two-sample stream,
where buffer entry 0 of window 0 is sample `min(0 + 2/2, 1) = 1`. -/
theorem C1_witness :
    1 ≤ (Header.mk 1 1).channel_count ∧ (0 : ℕ) < 2 ∧
    (buffer [5, 7] ⟨1, 1⟩ 2 0 0).getD 0 0 =
      if slice_start ([5, 7] : List ℝ).length 2 0 0 +
            0 * (Header.mk 1 1).channel_count < ([5, 7] : List ℝ).length
        then Complex.ofReal
          (([5, 7] : List ℝ).getD
            (slice_start ([5, 7] : List ℝ).length 2 0 0 +
              0 * (Header.mk 1 1).channel_count) 0)
        else 0 :=
  ⟨by norm_num, by norm_num,
    C1_amended [5, 7] ⟨1, 1⟩ 2 0 0 0 (by norm_num) (by norm_num)⟩

theorem slice_aborts_eq_false (L : ℕ) (h : Header) (a : ProgramArgs)
    (hL : L ≠ 0) (hcc : h.channel_count ≤ 2) :
    slice_aborts L h a = false := by
  rw [Bool.eq_false_iff]
  intro hcon
  unfold slice_aborts at hcon
  rw [List.any_eq_true] at hcon
  rcases hcon with ⟨cs, _, hcs⟩
  rw [List.any_eq_true] at hcs
  rcases hcs with ⟨c, hc, hd⟩
  rw [List.mem_range] at hc
  rw [decide_eq_true_eq] at hd
  unfold slice_start last_frame at hd
  have hmin : min (cs + read_chunk_size h a / 2) (L - 1) ≤ L - 1 :=
    min_le_right _ _
  omega

/-! ### Claim C6 -/

/-- Claim C6 counterexample: a three-channel stream of 6 samples with a
4-sample window.  At window offset 3, channel 2, the slice start is
`2 + min(3 + 2, 5) = 7 > 6`, so `&pcm_samples[7..]` aborts with an
index-out-of-range panic (modelled `none`): an edge condition does cause a
failure rather than padding, and no buffer of length `window_length` is
produced for that window and channel. -/
theorem C6_counterexample :
    fft_transform [1, 1, 1, 1, 1, 1] ⟨3, 1⟩ ⟨0, 1, some 4, none⟩ = none ∧
    slice_aborts 6 ⟨3, 1⟩ ⟨0, 1, some 4, none⟩ = true := by
  have hstart : start_chunk 6 ⟨3, 1⟩ ⟨0, 1, some 4, none⟩ = 0 := by
    norm_num [start_chunk, last_frame, toUsize]
  have hend : end_chunk 6 ⟨3, 1⟩ ⟨0, 1, some 4, none⟩ = 5 := by
    norm_num [end_chunk, last_frame]
  have hstep : step_size ⟨3, 1⟩ ⟨0, 1, some 4, none⟩ = 1 := by
    norm_num [step_size, toUsize]
  have hrc : read_chunk_size ⟨3, 1⟩ ⟨0, 1, some 4, none⟩ = 4 := by
    norm_num [read_chunk_size, ProgramArgs.get_chunk_step, toUsize]
  have habort : slice_aborts 6 ⟨3, 1⟩ ⟨0, 1, some 4, none⟩ = true := by
    unfold slice_aborts window_positions
    rw [hstart, hend, hstep, hrc]
    decide
  refine ⟨?_, habort⟩
  have hlen : ([1, 1, 1, 1, 1, 1] : List ℝ).length = 6 := by norm_num
  unfold fft_transform
  rw [hlen, if_neg (by norm_num), if_neg (by rw [hstep]; norm_num),
    if_pos habort]

/-- Claim C6, amended: the extracted buffer always has length exactly
`window_length` (the gather is capped at `window_length` values and
`resize` right-pads with zero complex entries), and for streams with at
most two channels no edge condition can abort the run — the transform then
returns its map; but for channel indices `c ≥ 2` an edge window can push
the slice start past the stream end then the run aborts
(see the counterexample). -/
theorem C6_amended (pcm : List ℝ) (h : Header) (a : ProgramArgs)
    (hL : pcm.length ≠ 0) (hst : step_size h a ≠ 0)
    (hcc : h.channel_count ≤ 2) :
    fft_transform pcm h a =
      some (fft_map pcm h a, map_width pcm.length h a, map_height h a) ∧
    ∀ rc cs c, (buffer pcm h rc cs c).length = rc := by
  have habort : slice_aborts pcm.length h a = false :=
    slice_aborts_eq_false pcm.length h a hL hcc
  constructor
  · exact (fft_transform_eq_some pcm h a _).mpr ⟨hL, hst, habort, rfl⟩
  · intro rc cs c
    exact buffer_length pcm h rc cs c

/-- Claim C6 witness: the amended statement on a two-channel two-sample
stream with a one-sample step. -/
theorem C6_witness :
    ([1, 2] : List ℝ).length ≠ 0 ∧
    step_size ⟨2, 1⟩ ⟨0, 1, none, none⟩ ≠ 0 ∧
    (Header.mk 2 1).channel_count ≤ 2 ∧
    (fft_transform [1, 2] ⟨2, 1⟩ ⟨0, 1, none, none⟩ =
      some (fft_map [1, 2] ⟨2, 1⟩ ⟨0, 1, none, none⟩,
        map_width ([1, 2] : List ℝ).length ⟨2, 1⟩ ⟨0, 1, none, none⟩,
        map_height ⟨2, 1⟩ ⟨0, 1, none, none⟩) ∧
      ∀ rc cs c, (buffer [1, 2] ⟨2, 1⟩ rc cs c).length = rc) :=
  ⟨by norm_num, by norm_num [step_size, toUsize], by norm_num,
    C6_amended [1, 2] ⟨2, 1⟩ ⟨0, 1, none, none⟩ (by norm_num)
      (by norm_num [step_size, toUsize]) (by norm_num)⟩

/-! ### Supporting lemmas: silent buffers and silent maps -/

theorem takeEvery_subset {α : Type} (st : ℕ) :
    ∀ (l : List α) (z : α), z ∈ takeEvery st l → z ∈ l := by
  intro l
  induction l using takeEvery.induct st with
  | case1 =>
      intro z hz
      rw [takeEvery] at hz
      exact hz
  | case2 x xs ih =>
      intro z hz
      rw [takeEvery] at hz
      rcases List.mem_cons.mp hz with rfl | hmem
      · exact List.mem_cons_self _ _
      · exact List.mem_cons_of_mem _ (List.mem_of_mem_drop (ih z hmem))

theorem buffer_zero_of_silent (pcm : List ℝ) (h : Header) (rc cs c : ℕ)
    (hp : ∀ s ∈ pcm, s = 0) : ∀ z ∈ buffer pcm h rc cs c, z = 0 := by
  intro z hz
  unfold buffer at hz
  rcases List.mem_append.mp hz with hg | hr
  · unfold gather at hg
    rcases List.mem_map.mp hg with ⟨s, hs, rfl⟩
    have hs2 : s ∈ pcm :=
      List.mem_of_mem_drop (takeEvery_subset _ _ s (List.mem_of_mem_take hs))
    rw [hp s hs2]
    exact Complex.ofReal_zero
  · exact List.eq_of_mem_replicate hr

theorem channel_row_of_zero_buffer (pcm : List ℝ) (h : Header)
    (rc height cs c : ℕ) (hz : ∀ z ∈ buffer pcm h rc cs c, z = 0) :
    ∀ v ∈ channel_row pcm h rc height cs c, v = 0 := by
  intro v hv
  unfold channel_row at hv
  rcases List.mem_map.mp hv with ⟨z, hz2, rfl⟩
  have hzz : z = 0 := by
    have h2 : z ∈ dft (buffer pcm h rc cs c) :=
      List.mem_of_mem_take (List.mem_of_mem_drop hz2)
    rw [dft_zero _ hz] at h2
    exact List.eq_of_mem_replicate h2
  rw [hzz]
  norm_num

theorem foldl_addInto_id (f : ℕ → List ℝ)
    (hfid : ∀ (row : List ℝ) (c : ℕ), addInto row (f c) = row) :
    ∀ (cs : List ℕ) (init : List ℝ),
      cs.foldl (fun row c => addInto row (f c)) init = init := by
  intro cs
  induction cs with
  | nil => intro init; rfl
  | cons c cs ih =>
      intro init
      rw [List.foldl_cons, hfid, ih]

theorem window_row_silent (pcm : List ℝ) (h : Header) (a : ProgramArgs)
    (cs : ℕ) (hp : ∀ s ∈ pcm, s = 0) :
    window_row pcm h a cs = List.replicate (map_height h a) 0 := by
  unfold window_row
  exact foldl_addInto_id _
    (fun row c =>
      addInto_zero row _
        (channel_row_of_zero_buffer pcm h _ _ cs c
          (buffer_zero_of_silent pcm h _ cs c hp)))
    _ _

theorem fft_map_silent (pcm : List ℝ) (h : Header) (a : ProgramArgs)
    (hp : ∀ s ∈ pcm, s = 0) (hst : step_size h a ≠ 0) :
    fft_map pcm h a =
      List.replicate (map_width pcm.length h a)
        (List.replicate (map_height h a) 0) := by
  have hcount := positions_length_le pcm.length h a hst
  unfold fft_map
  have hmap : (window_positions pcm.length h a).map (window_row pcm h a) =
      List.replicate (window_positions pcm.length h a).length
        (List.replicate (map_height h a) 0) := by
    rw [List.eq_replicate_iff]
    refine ⟨by rw [List.length_map], ?_⟩
    intro b hb
    rcases List.mem_map.mp hb with ⟨cs, _, rfl⟩
    exact window_row_silent pcm h a cs hp
  rw [hmap, ← List.replicate_add]
  congr 1
  omega

theorem list_eq_singleton {α : Type} (l : List α) (d : α) (h : l.length = 1) :
    l = [l.getD 0 d] := by
  cases l with
  | nil => simp at h
  | cons x xs =>
      cases xs with
      | nil => simp
      | cons y ys => simp at h

/-! ### Claim C5 -/

/-- Claim C5: for every iterated window `x` and every output column `y`
with `y + 1 < height` (`height = window_length / 2`), the accumulated cell
is the sum over channels of `|Re(X[y+1])|` — the absolute value of the real
component of FFT bin `y + 1`, not the complex magnitude.  Cell `(x, y)`
stores bin `y + 1`, so only bins in `[1, height)` ever reach the map and the
DC bin 0 is never accumulated (hence never the source of the global
maximum, which is taken over this map). -/
theorem C5_cell (pcm : List ℝ) (h : Header) (a : ProgramArgs) (x y : ℕ)
    (hx : x < (window_positions pcm.length h a).length)
    (hy : y + 1 < map_height h a) :
    cell (fft_map pcm h a) x y =
      ((List.range h.channel_count).map fun c =>
        |((dft (buffer pcm h (read_chunk_size h a)
            ((window_positions pcm.length h a).getD x 0) c)).getD (y + 1) 0).re|).sum := by
  unfold cell
  rw [fft_map_getD_lt pcm h a x hx, window_row_getD]
  congr 1
  refine List.map_congr_left ?_
  intro c _
  exact channel_row_getD pcm h _ _ _ c y hy (map_height_le_rc h a)

/-- Claim C5 witness: the unit-impulse stream `[0,0,1,0]` (one channel,
1 Hz, 4-sample window), window 0, column 0. -/
theorem C5_witness :
    0 < (window_positions ([0, 0, 1, 0] : List ℝ).length ⟨1, 1⟩
          ⟨0, 1, some 4, none⟩).length ∧
    0 + 1 < map_height ⟨1, 1⟩ ⟨0, 1, some 4, none⟩ ∧
    cell (fft_map [0, 0, 1, 0] ⟨1, 1⟩ ⟨0, 1, some 4, none⟩) 0 0 =
      ((List.range (Header.mk 1 1).channel_count).map fun c =>
        |((dft (buffer [0, 0, 1, 0] ⟨1, 1⟩
            (read_chunk_size ⟨1, 1⟩ ⟨0, 1, some 4, none⟩)
            ((window_positions ([0, 0, 1, 0] : List ℝ).length ⟨1, 1⟩
              ⟨0, 1, some 4, none⟩).getD 0 0) c)).getD (0 + 1) 0).re|).sum :=
  ⟨by norm_num [window_positions, length_step_range, step_range_count,
      start_chunk, end_chunk, step_size, last_frame, toUsize],
    by norm_num [map_height, read_chunk_size, ProgramArgs.get_chunk_step,
      toUsize],
    C5_cell [0, 0, 1, 0] ⟨1, 1⟩ ⟨0, 1, some 4, none⟩ 0 0
      (by norm_num [window_positions, length_step_range, step_range_count,
        start_chunk, end_chunk, step_size, last_frame, toUsize])
      (by norm_num [map_height, read_chunk_size, ProgramArgs.get_chunk_step,
        toUsize])⟩

/-! ### Concrete DFT evaluations for the unit-impulse inputs -/

theorem impulse_e1 : (dft [(1 : ℂ), 0, 0, 0]).getD 1 0 = 1 := by
  have h4 : ([(1 : ℂ), 0, 0, 0] : List ℂ).length = 4 := by norm_num
  rw [List.getD_eq_getElem?_getD, dft_getElem? _ 1 (by norm_num),
    Option.getD_some]
  simp only [h4]
  rw [Finset.sum_range_succ, Finset.sum_range_succ, Finset.sum_range_succ,
    Finset.sum_range_one]
  norm_num

theorem impulse2_e1_re : ((dft [(0 : ℂ), 1, 0, 0]).getD 1 0).re = 0 := by
  have h4 : ([(0 : ℂ), 1, 0, 0] : List ℂ).length = 4 := by norm_num
  rw [List.getD_eq_getElem?_getD, dft_getElem? _ 1 (by norm_num),
    Option.getD_some]
  simp only [h4]
  rw [Finset.sum_range_succ, Finset.sum_range_succ, Finset.sum_range_succ,
    Finset.sum_range_one]
  simp only [List.getD_cons_zero, List.getD_cons_succ, Nat.cast_zero,
    Nat.cast_one, Nat.cast_ofNat, zero_mul, one_mul, mul_zero, add_zero,
    zero_add]
  have harg : -(2 * (Real.pi : ℂ) * Complex.I * 1 * 1) / 4 =
      ((-(Real.pi / 2) : ℝ) : ℂ) * Complex.I := by
    push_cast
    ring
  rw [harg, Complex.exp_ofReal_mul_I_re]
  simp [Real.cos_pi_div_two]

/-! ### Concrete evaluation of the unit-impulse run
(`pcm = [0,0,1,0]`, one channel at 1 Hz, window 4 samples, step 1). -/

theorem impulseA_rc : read_chunk_size ⟨1, 1⟩ ⟨0, 1, some 4, none⟩ = 4 := by
  norm_num [read_chunk_size, ProgramArgs.get_chunk_step, toUsize]

theorem impulseA_height : map_height ⟨1, 1⟩ ⟨0, 1, some 4, none⟩ = 2 := by
  rw [map_height, impulseA_rc]

theorem impulseA_step : step_size ⟨1, 1⟩ ⟨0, 1, some 4, none⟩ = 1 := by
  norm_num [step_size, toUsize]

theorem impulseA_pos :
    window_positions 4 ⟨1, 1⟩ ⟨0, 1, some 4, none⟩ = [0, 1, 2] := by
  have hs : start_chunk 4 ⟨1, 1⟩ ⟨0, 1, some 4, none⟩ = 0 := by
    norm_num [start_chunk, last_frame, toUsize]
  have he : end_chunk 4 ⟨1, 1⟩ ⟨0, 1, some 4, none⟩ = 3 := by
    norm_num [end_chunk, last_frame]
  unfold window_positions
  rw [hs, he, impulseA_step]
  decide

theorem impulseA_width : map_width 4 ⟨1, 1⟩ ⟨0, 1, some 4, none⟩ = 4 := by
  norm_num [map_width, start_chunk, end_chunk, step_size, last_frame, toUsize]

theorem impulse_buffer0 :
    buffer [0, 0, 1, 0] ⟨1, 1⟩ 4 0 0 = [(1 : ℂ), 0, 0, 0] := by
  norm_num [buffer, gather, slice_start, last_frame, takeEvery,
    List.replicate_succ]

theorem impulse_buffer1 :
    buffer [0, 0, 1, 0] ⟨1, 1⟩ 4 1 0 = [(0 : ℂ), 0, 0, 0] := by
  norm_num [buffer, gather, slice_start, last_frame, takeEvery,
    List.replicate_succ]

theorem impulse_buffer2 :
    buffer [0, 0, 1, 0] ⟨1, 1⟩ 4 2 0 = [(0 : ℂ), 0, 0, 0] := by
  norm_num [buffer, gather, slice_start, last_frame, takeEvery,
    List.replicate_succ]

theorem impulse_crow0 :
    channel_row [0, 0, 1, 0] ⟨1, 1⟩ 4 2 0 0 = [1] := by
  have hlen : (channel_row [0, 0, 1, 0] ⟨1, 1⟩ 4 2 0 0).length = 1 := by
    rw [channel_row_length]
    norm_num
  have hv : (channel_row [0, 0, 1, 0] ⟨1, 1⟩ 4 2 0 0).getD 0 0 = 1 := by
    rw [channel_row_getD [0, 0, 1, 0] ⟨1, 1⟩ 4 2 0 0 0 (by norm_num)
      (by norm_num), impulse_buffer0, show ((0 : ℕ) + 1) = 1 from rfl,
      impulse_e1]
    norm_num
  have heq := list_eq_singleton (channel_row [0, 0, 1, 0] ⟨1, 1⟩ 4 2 0 0) 0 hlen
  rw [hv] at heq
  exact heq

theorem impulse_row0 :
    window_row [0, 0, 1, 0] ⟨1, 1⟩ ⟨0, 1, some 4, none⟩ 0 = [1, 0] := by
  unfold window_row
  simp only [impulseA_rc, impulseA_height]
  rw [show List.range 1 = [0] from rfl, List.foldl_cons, List.foldl_nil,
    show List.replicate 2 (0 : ℝ) = [0, 0] from rfl, impulse_crow0]
  norm_num [addInto]

theorem impulse_row12 (cs : ℕ) (hcs : cs = 1 ∨ cs = 2) :
    window_row [0, 0, 1, 0] ⟨1, 1⟩ ⟨0, 1, some 4, none⟩ cs = [0, 0] := by
  unfold window_row
  simp only [impulseA_rc, impulseA_height]
  rw [show List.range 1 = [0] from rfl, List.foldl_cons, List.foldl_nil,
    addInto_zero _ _ (channel_row_of_zero_buffer [0, 0, 1, 0] ⟨1, 1⟩ 4 2 cs 0 ?_)]
  · rfl
  · intro z hz
    rcases hcs with rfl | rfl
    · rw [impulse_buffer1] at hz
      simp at hz
      exact hz
    · rw [impulse_buffer2] at hz
      simp at hz
      exact hz

theorem impulse_fft_map :
    fft_map [0, 0, 1, 0] ⟨1, 1⟩ ⟨0, 1, some 4, none⟩ =
      [[1, 0], [0, 0], [0, 0], [0, 0]] := by
  have hlen4 : ([0, 0, 1, 0] : List ℝ).length = 4 := by norm_num
  unfold fft_map
  rw [hlen4, impulseA_pos, impulseA_width, impulseA_height, List.map_cons,
    List.map_cons, List.map_cons, List.map_nil, impulse_row0,
    impulse_row12 1 (Or.inl rfl), impulse_row12 2 (Or.inr rfl)]
  rfl

theorem impulse_signal_max :
    signal_max ([[1, 0], [0, 0], [0, 0], [0, 0]] : List (List ℝ)) = some 1 := by
  norm_num [signal_max, maxStep, max_def]

theorem impulse_pipeline :
    pipeline [0, 0, 1, 0] ⟨1, 1⟩ ⟨0, 1, some 4, none⟩ =
      some [[some 1, some 0], [some 0, some 0], [some 0, some 0],
        [some 0, some 0]] := by
  have hlen4 : ([0, 0, 1, 0] : List ℝ).length = 4 := by norm_num
  rw [pipeline_eq_some]
  refine ⟨by norm_num, by rw [impulseA_step]; norm_num,
    slice_aborts_eq_false _ _ _ (by norm_num) (by norm_num), ?_⟩
  rw [amplify_none]
  simp only [hlen4, impulse_fft_map, impulse_signal_max]
  norm_num [normalizeCell]

/-! ### Concrete evaluation of the two-channel run
(`pcm = [0,0,0,0,1,0,0,0]`: channel 0 carries the impulse `[0,0,1,0]`,
channel 1 is silent; two channels at 1 Hz, window 4 samples, step 1). -/

theorem twoch_rc : read_chunk_size ⟨2, 1⟩ ⟨0, 1, some 4, none⟩ = 4 := by
  norm_num [read_chunk_size, ProgramArgs.get_chunk_step, toUsize]

theorem twoch_height : map_height ⟨2, 1⟩ ⟨0, 1, some 4, none⟩ = 2 := by
  rw [map_height, twoch_rc]

theorem twoch_pos :
    window_positions 8 ⟨2, 1⟩ ⟨0, 1, some 4, none⟩ =
      [0, 1, 2, 3, 4, 5, 6] := by
  have hs : start_chunk 8 ⟨2, 1⟩ ⟨0, 1, some 4, none⟩ = 0 := by
    norm_num [start_chunk, last_frame, toUsize]
  have he : end_chunk 8 ⟨2, 1⟩ ⟨0, 1, some 4, none⟩ = 7 := by
    norm_num [end_chunk, last_frame]
  have hst : step_size ⟨2, 1⟩ ⟨0, 1, some 4, none⟩ = 1 := by
    norm_num [step_size, toUsize]
  unfold window_positions
  rw [hs, he, hst]
  decide

theorem twoch_buffer0 :
    buffer [0, 0, 0, 0, 1, 0, 0, 0] ⟨2, 1⟩ 4 0 0 = [(0 : ℂ), 1, 0, 0] := by
  norm_num [buffer, gather, slice_start, last_frame, takeEvery,
    List.replicate_succ]

theorem twoch_buffer1 :
    buffer [0, 0, 0, 0, 1, 0, 0, 0] ⟨2, 1⟩ 4 0 1 = [(0 : ℂ), 0, 0, 0] := by
  norm_num [buffer, gather, slice_start, last_frame, takeEvery,
    List.replicate_succ]

/-! ### Claim C9 -/

/-- Claim C9 counterexample: channel 0 carries the impulse `[0,0,1,0]` and
channel 1 is silent.  Cell `(0, 0)` (window 0, FFT bin 1) of the
two-channel map is `0`, while the same cell of the single-channel map built
from channel 0's signal alone is `1`: the two maps do not agree cell for
cell, because window planning and the half-window extraction offset are
computed in raw interleaved sample indices. -/
theorem C9_counterexample :
    cell (fft_map [0, 0, 0, 0, 1, 0, 0, 0] ⟨2, 1⟩ ⟨0, 1, some 4, none⟩) 0 0 =
      0 ∧
    cell (fft_map [0, 0, 1, 0] ⟨1, 1⟩ ⟨0, 1, some 4, none⟩) 0 0 = 1 ∧
    (0 : ℝ) ≠ 1 := by
  have hlen8 : ([0, 0, 0, 0, 1, 0, 0, 0] : List ℝ).length = 8 := by norm_num
  refine ⟨?_, ?_, by norm_num⟩
  · have hx : (0 : ℕ) <
        (window_positions ([0, 0, 0, 0, 1, 0, 0, 0] : List ℝ).length ⟨2, 1⟩
          ⟨0, 1, some 4, none⟩).length := by
      rw [hlen8, twoch_pos]
      norm_num
    have hp0 : (window_positions ([0, 0, 0, 0, 1, 0, 0, 0] : List ℝ).length
        ⟨2, 1⟩ ⟨0, 1, some 4, none⟩).getD 0 0 = 0 := by
      rw [hlen8, twoch_pos]
      rfl
    unfold cell
    rw [fft_map_getD_lt _ _ _ 0 hx, window_row_getD]
    simp only [hp0, twoch_rc, twoch_height]
    rw [show List.range 2 = [0, 1] from rfl, List.map_cons, List.map_cons,
      List.map_nil]
    have hc0 : (channel_row [0, 0, 0, 0, 1, 0, 0, 0] ⟨2, 1⟩ 4 2 0 0).getD 0 0 =
        0 := by
      rw [channel_row_getD [0, 0, 0, 0, 1, 0, 0, 0] ⟨2, 1⟩ 4 2 0 0 0
        (by norm_num) (by norm_num), twoch_buffer0,
        show ((0 : ℕ) + 1) = 1 from rfl]
      rw [impulse2_e1_re]
      norm_num
    have hc1 : (channel_row [0, 0, 0, 0, 1, 0, 0, 0] ⟨2, 1⟩ 4 2 0 1).getD 0 0 =
        0 := by
      apply getD_eq_zero_of_forall
      apply channel_row_of_zero_buffer
      intro z hz
      rw [twoch_buffer1] at hz
      simp at hz
      exact hz
    rw [hc0, hc1]
    norm_num
  · unfold cell
    rw [impulse_fft_map]
    norm_num

/-- Claim C9, amended: additive multi-channel accumulation does hold at the
buffer level — a channel whose extracted buffer is all-zero contributes
exactly `0` to the row (its `|Re|` magnitudes are all zero, and adding them
leaves every cell unchanged; never a negative or multiplicative effect).
The full-map equality with a single-channel run fails (see the
counterexample) because window positions and the half-window offset are
measured in raw interleaved sample indices. -/
theorem C9_amended (pcm : List ℝ) (h : Header) (rc height cs c : ℕ)
    (row : List ℝ) (hz : ∀ z ∈ buffer pcm h rc cs c, z = 0) :
    addInto row (channel_row pcm h rc height cs c) = row :=
  addInto_zero row _ (channel_row_of_zero_buffer pcm h rc height cs c hz)

/-- Claim C9 witness: a silent channel of a four-sample two-channel stream
leaves the accumulated row `[5]` unchanged. -/
theorem C9_witness :
    (∀ z ∈ buffer [0, 0, 0, 0] ⟨2, 1⟩ 2 0 1, z = 0) ∧
    addInto [5] (channel_row [0, 0, 0, 0] ⟨2, 1⟩ 2 1 0 1) = [5] := by
  have hb : buffer [0, 0, 0, 0] ⟨2, 1⟩ 2 0 1 = [(0 : ℂ), 0] := by
    norm_num [buffer, gather, slice_start, last_frame, takeEvery,
      List.replicate_succ]
  have hz : ∀ z ∈ buffer [0, 0, 0, 0] ⟨2, 1⟩ 2 0 1, z = 0 := by
    intro z hzz
    rw [hb] at hzz
    simp at hzz
    exact hzz
  exact ⟨hz, C9_amended [0, 0, 0, 0] ⟨2, 1⟩ 2 1 0 1 [5] hz⟩

/-! ### Supporting lemmas: normalization of concrete and generic maps -/

theorem getD_map_of_lt {α β : Type} (f : α → β) (l : List α) (x : ℕ)
    (d : α) (d2 : β) (hx : x < l.length) :
    (l.map f).getD x d2 = f (l.getD x d) := by
  rw [List.getD_eq_getElem?_getD, List.getD_eq_getElem?_getD,
    List.getElem?_map, List.getElem?_eq_getElem hx, Option.map_some',
    Option.getD_some, Option.getD_some]

/-! ### Claim C3 -/

/-- Claim C3 (code bug): on an all-zero four-sample stream the accumulated
map is entirely zero, and the code computes the normalization denominator
as the plain global maximum — `some 0`, with no `max(global_max, 1)` floor
anywhere — then divides every cell by it.  Each cell becomes `0/0`, a
nonfinite IEEE value (`NaN`, modelled `none`), not `0`: division by zero
does propagate into the whole output map. -/
theorem C3_silent_propagates_nan :
    pipeline [0, 0, 0, 0] ⟨1, 1⟩ ⟨0, 1, some 4, none⟩ =
      some [[none, none], [none, none], [none, none], [none, none]] ∧
    signal_max (fft_map [0, 0, 0, 0] ⟨1, 1⟩ ⟨0, 1, some 4, none⟩) =
      some 0 := by
  have hlen4 : ([0, 0, 0, 0] : List ℝ).length = 4 := by norm_num
  have hsil : ∀ s ∈ ([0, 0, 0, 0] : List ℝ), s = 0 := by
    intro s hs
    simp at hs
    exact hs
  have hmap : fft_map [0, 0, 0, 0] ⟨1, 1⟩ ⟨0, 1, some 4, none⟩ =
      [[0, 0], [0, 0], [0, 0], [0, 0]] := by
    have hsl := fft_map_silent [0, 0, 0, 0] ⟨1, 1⟩ ⟨0, 1, some 4, none⟩ hsil
      (by rw [impulseA_step]; norm_num)
    rw [hlen4, impulseA_width, impulseA_height] at hsl
    rw [hsl]
    rfl
  have hsm : signal_max ([[0, 0], [0, 0], [0, 0], [0, 0]] : List (List ℝ)) =
      some 0 := by
    norm_num [signal_max, maxStep, max_def]
  refine ⟨?_, by rw [hmap]; exact hsm⟩
  rw [pipeline_eq_some]
  refine ⟨by norm_num, by rw [impulseA_step]; norm_num,
    slice_aborts_eq_false _ _ _ (by norm_num) (by norm_num), ?_⟩
  rw [amplify_none]
  simp only [hmap, hsm]
  norm_num [normalizeCell]

/-! ### Claim C7 -/

/-- Claim C7 counterexample: an all-zero two-sample stream.  After the
normalization pass the only cells of the map are `0/0` — nonfinite
(modelled `none`), not real values in `[0, 1]`: the claim's "for every
input" fails on silent input (same missing floor as C3). -/
theorem C7_counterexample :
    pipeline [0, 0] ⟨1, 1⟩ ⟨0, 1, some 2, none⟩ = some [[none], [none]] ∧
    pcell [[(none : Option ℝ)], [none]] 0 0 = none := by
  refine ⟨?_, rfl⟩
  have hlen2 : ([0, 0] : List ℝ).length = 2 := by norm_num
  have hst : step_size ⟨1, 1⟩ ⟨0, 1, some 2, none⟩ = 1 := by
    norm_num [step_size, toUsize]
  have hsil : ∀ s ∈ ([0, 0] : List ℝ), s = 0 := by
    intro s hs
    simp at hs
    exact hs
  have hw : map_width 2 ⟨1, 1⟩ ⟨0, 1, some 2, none⟩ = 2 := by
    norm_num [map_width, start_chunk, end_chunk, step_size, last_frame,
      toUsize]
  have hh : map_height ⟨1, 1⟩ ⟨0, 1, some 2, none⟩ = 1 := by
    norm_num [map_height, read_chunk_size, ProgramArgs.get_chunk_step,
      toUsize]
  have hmap : fft_map [0, 0] ⟨1, 1⟩ ⟨0, 1, some 2, none⟩ = [[0], [0]] := by
    have hsl := fft_map_silent [0, 0] ⟨1, 1⟩ ⟨0, 1, some 2, none⟩ hsil
      (by rw [hst]; norm_num)
    rw [hlen2, hw, hh] at hsl
    rw [hsl]
    rfl
  have hsm : signal_max ([[0], [0]] : List (List ℝ)) = some 0 := by
    norm_num [signal_max, maxStep, max_def]
  rw [pipeline_eq_some]
  refine ⟨by norm_num, by rw [hst]; norm_num,
    slice_aborts_eq_false _ _ _ (by norm_num) (by norm_num), ?_⟩
  rw [amplify_none]
  simp only [hmap, hsm]
  norm_num [normalizeCell]

/-- Claim C7, amended: whenever the pre-normalization global maximum is
strictly positive, every cell of the normalized map is a real value in
`[0, 1]` and the cell that attained the maximum equals exactly `1`.  (When
the maximum is `0` — an all-zero map — every cell is `0/0`, nonfinite; see
the counterexample.) -/
theorem C7_amended (pcm : List ℝ) (h : Header) (a : ProgramArgs)
    (M : List (List (Option ℝ))) (m : ℝ)
    (hP : pipeline pcm h a = some M)
    (hm : signal_max (fft_map pcm h a) = some m) (hpos : 0 < m) :
    (∀ row ∈ M, ∀ v ∈ row, ∃ q, v = some q ∧ 0 ≤ q ∧ q ≤ 1) ∧
    some (1 : ℝ) ∈ M.flatten := by
  rcases (pipeline_eq_some pcm h a M).mp hP with ⟨h1, h2, h3, rfl⟩
  rw [amplify_none]
  have hspec := signal_max_some _ m hm
  constructor
  · intro row hrow v hv
    rcases List.mem_map.mp hrow with ⟨row0, hrow0, rfl⟩
    rcases List.mem_map.mp hv with ⟨v0, hv0, rfl⟩
    have hnn : 0 ≤ v0 := fft_map_nonneg pcm h a row0 hrow0 v0 hv0
    have hle : v0 ≤ m := hspec.2 v0 (List.mem_flatten.mpr ⟨row0, hrow0, hv0⟩)
    refine ⟨v0 / m, ?_, div_nonneg hnn (le_of_lt hpos),
      (div_le_one hpos).mpr hle⟩
    simp only [hm, normalizeCell]
    rw [if_neg hpos.ne']
  · have hmem : m ∈ (fft_map pcm h a).flatten := hspec.1
    rcases List.mem_flatten.mp hmem with ⟨row0, hrow0, hv0⟩
    apply List.mem_flatten.mpr
    refine ⟨row0.map (normalizeCell (signal_max (fft_map pcm h a))),
      List.mem_map_of_mem _ hrow0, ?_⟩
    have hone : normalizeCell (signal_max (fft_map pcm h a)) m = some 1 := by
      simp only [hm, normalizeCell]
      rw [if_neg hpos.ne', div_self hpos.ne']
    rw [← hone]
    exact List.mem_map_of_mem _ hv0

/-- Claim C7 witness: the amended statement on the unit-impulse run, whose
global maximum is `1` and whose normalized map is
`[[1, 0], [0, 0], [0, 0], [0, 0]]` (as `some` values). -/
theorem C7_witness :
    pipeline [0, 0, 1, 0] ⟨1, 1⟩ ⟨0, 1, some 4, none⟩ =
      some [[some 1, some 0], [some 0, some 0], [some 0, some 0],
        [some 0, some 0]] ∧
    signal_max (fft_map [0, 0, 1, 0] ⟨1, 1⟩ ⟨0, 1, some 4, none⟩) =
      some 1 ∧
    (0 : ℝ) < 1 ∧
    ((∀ row ∈ ([[some 1, some 0], [some 0, some 0], [some 0, some 0],
          [some 0, some 0]] : List (List (Option ℝ))),
        ∀ v ∈ row, ∃ q, v = some q ∧ 0 ≤ q ∧ q ≤ 1) ∧
      some (1 : ℝ) ∈ ([[some 1, some 0], [some 0, some 0], [some 0, some 0],
        [some 0, some 0]] : List (List (Option ℝ))).flatten) := by
  have hsm : signal_max (fft_map [0, 0, 1, 0] ⟨1, 1⟩ ⟨0, 1, some 4, none⟩) =
      some 1 := by
    rw [impulse_fft_map]
    exact impulse_signal_max
  exact ⟨impulse_pipeline, hsm, by norm_num,
    C7_amended [0, 0, 1, 0] ⟨1, 1⟩ ⟨0, 1, some 4, none⟩ _ 1 impulse_pipeline
      hsm (by norm_num)⟩

/-! ### Claim C10 -/

/-- Claim C10 counterexample: a silent three-sample stream with a 2-sample
window has `height = 1`, so the final column is column 0.  It is never
written during accumulation (it holds `0`), but the normalization pass does
not leave it `0`: the map is all-zero, so the cell is divided by a zero
maximum and becomes nonfinite (`none`), not `0`. -/
theorem C10_counterexample :
    pipeline [0, 0, 0] ⟨1, 1⟩ ⟨0, 1, some 2, none⟩ =
      some [[none], [none], [none]] ∧
    map_height ⟨1, 1⟩ ⟨0, 1, some 2, none⟩ - 1 = 0 ∧
    (none : Option ℝ) ≠ some 0 := by
  have hlen3 : ([0, 0, 0] : List ℝ).length = 3 := by norm_num
  have hst : step_size ⟨1, 1⟩ ⟨0, 1, some 2, none⟩ = 1 := by
    norm_num [step_size, toUsize]
  have hsil : ∀ s ∈ ([0, 0, 0] : List ℝ), s = 0 := by
    intro s hs
    simp at hs
    exact hs
  have hw : map_width 3 ⟨1, 1⟩ ⟨0, 1, some 2, none⟩ = 3 := by
    norm_num [map_width, start_chunk, end_chunk, step_size, last_frame,
      toUsize]
  have hh : map_height ⟨1, 1⟩ ⟨0, 1, some 2, none⟩ = 1 := by
    norm_num [map_height, read_chunk_size, ProgramArgs.get_chunk_step,
      toUsize]
  have hmap : fft_map [0, 0, 0] ⟨1, 1⟩ ⟨0, 1, some 2, none⟩ =
      [[0], [0], [0]] := by
    have hsl := fft_map_silent [0, 0, 0] ⟨1, 1⟩ ⟨0, 1, some 2, none⟩ hsil
      (by rw [hst]; norm_num)
    rw [hlen3, hw, hh] at hsl
    rw [hsl]
    rfl
  have hsm : signal_max ([[0], [0], [0]] : List (List ℝ)) = some 0 := by
    norm_num [signal_max, maxStep, max_def]
  refine ⟨?_, by rw [hh], by simp⟩
  rw [pipeline_eq_some]
  refine ⟨by norm_num, by rw [hst]; norm_num,
    slice_aborts_eq_false _ _ _ (by norm_num) (by norm_num), ?_⟩
  rw [amplify_none]
  simp only [hmap, hsm]
  norm_num [normalizeCell]

/-- Claim C10, amended: every row is allocated with `height` cells and the
accumulation loop writes only columns `0 .. height-2` (cell `(x, y)` stores
FFT bin `y+1`), so the final column of every row is `0` after accumulation;
the normalization pass rewrites it to `0/global_max`, which is again `0`
whenever the global maximum is nonzero (on an all-zero map it becomes
nonfinite instead — see the counterexample). -/
theorem C10_amended (pcm : List ℝ) (h : Header) (a : ProgramArgs) (x : ℕ)
    (hst : step_size h a ≠ 0) (hh : 1 ≤ map_height h a)
    (hx : x < map_width pcm.length h a) :
    cell (fft_map pcm h a) x (map_height h a - 1) = 0 ∧
    ∀ m : ℝ, signal_max (fft_map pcm h a) = some m → m ≠ 0 →
      pcell (amplify_and_normalize none (fft_map pcm h a)) x
        (map_height h a - 1) = some 0 := by
  have hcell : cell (fft_map pcm h a) x (map_height h a - 1) = 0 := by
    unfold cell
    rcases Nat.lt_or_ge x (window_positions pcm.length h a).length with
      hlt | hge
    · rw [fft_map_getD_lt pcm h a x hlt, window_row_getD]
      apply List.sum_eq_zero
      intro v hv
      rcases List.mem_map.mp hv with ⟨c, _, rfl⟩
      apply getD_eq_zero_of_le
      rw [channel_row_length]
      have := map_height_le_rc h a
      omega
    · rw [fft_map_getD_pad pcm h a x hge hx, replicate_getD_zero]
  refine ⟨hcell, ?_⟩
  intro m hm hm0
  have hxlen : x < (fft_map pcm h a).length := by
    rw [fft_map_length pcm h a hst]
    exact hx
  have hrowmem : (fft_map pcm h a).getD x [] ∈ fft_map pcm h a := by
    rw [List.getD_eq_getElem?_getD, List.getElem?_eq_getElem hxlen,
      Option.getD_some]
    exact List.getElem_mem hxlen
  have hrlen := fft_map_row_length pcm h a _ hrowmem
  unfold pcell
  rw [amplify_none, getD_map_of_lt _ _ x ([] : List ℝ) _ hxlen,
    getD_map_of_lt _ _ _ (0 : ℝ) _ (by rw [hrlen]; omega)]
  have hzero : ((fft_map pcm h a).getD x []).getD (map_height h a - 1) 0 =
      0 := hcell
  rw [hzero]
  simp only [hm, normalizeCell]
  rw [if_neg hm0, zero_div]

/-- Claim C10 witness: the amended statement on the unit-impulse run
(`height = 2`, row 0): the last column is `0` after accumulation and
`some 0` after normalization by the maximum `1`. -/
theorem C10_witness :
    step_size ⟨1, 1⟩ ⟨0, 1, some 4, none⟩ ≠ 0 ∧
    1 ≤ map_height ⟨1, 1⟩ ⟨0, 1, some 4, none⟩ ∧
    0 < map_width ([0, 0, 1, 0] : List ℝ).length ⟨1, 1⟩
      ⟨0, 1, some 4, none⟩ ∧
    (cell (fft_map [0, 0, 1, 0] ⟨1, 1⟩ ⟨0, 1, some 4, none⟩) 0
        (map_height ⟨1, 1⟩ ⟨0, 1, some 4, none⟩ - 1) = 0 ∧
      ∀ m : ℝ,
        signal_max (fft_map [0, 0, 1, 0] ⟨1, 1⟩ ⟨0, 1, some 4, none⟩) =
          some m → m ≠ 0 →
        pcell (amplify_and_normalize none
          (fft_map [0, 0, 1, 0] ⟨1, 1⟩ ⟨0, 1, some 4, none⟩)) 0
          (map_height ⟨1, 1⟩ ⟨0, 1, some 4, none⟩ - 1) = some 0) :=
  ⟨by rw [impulseA_step]; norm_num, by rw [impulseA_height]; norm_num,
    by rw [show ([0, 0, 1, 0] : List ℝ).length = 4 from by norm_num,
      impulseA_width]; norm_num,
    C10_amended [0, 0, 1, 0] ⟨1, 1⟩ ⟨0, 1, some 4, none⟩ 0
      (by rw [impulseA_step]; norm_num)
      (by rw [impulseA_height]; norm_num)
      (by rw [show ([0, 0, 1, 0] : List ℝ).length = 4 from by norm_num,
        impulseA_width]; norm_num)⟩

end Sheeter
